import Mathlib

/-!
Verification of the chromatix wave-propagation core against its
natural-language specification.

The Python source is shallowly embedded:
* `src/chromatix/utils/utils.py` (`center_pad`, `center_crop`) over a
  generic n-dimensional array model `NDArray`;
* `src/chromatix/functional/propagate.py` over a fixed-rank
  (batch, height, width, channel) `Field` model with an explicit discrete
  Fourier transform standing for the external FFT primitives;
* `src/chromatix/functional/samples.py` and
  `src/chromatix/functional/polarizers.py` on top of those.

Machine floats are modelled by exact real/complex arithmetic.
-/

namespace Chromatix

/-! ## Generic n-dimensional arrays (model of `jax.numpy` arrays)

An array is a shape together with the values at every index list; only
indices that are pointwise below the shape are meaningful. -/

structure NDArray (α : Type) where
  shape : List Nat
  data : List Nat → α

/-- An index list is valid for a shape when the two lists have the same
length and the index is pointwise smaller. -/
def ValidIdx (shape idx : List Nat) : Prop :=
  List.Forall₂ (fun i s => i < s) idx shape

/-- Arrays are equal in the `jax.numpy` sense: same shape and same entries
at every valid index. -/
def NDArray.Eqv {α : Type} (x y : NDArray α) : Prop :=
  x.shape = y.shape ∧ ∀ idx, ValidIdx x.shape idx → x.data idx = y.data idx

/-- Entry of a symmetrically padded array is an original entry exactly when
every coordinate falls inside the copied region `[n, n + s)`. Mirrors the
semantics of `jnp.pad` with constant values. -/
def inPadRegion : List Nat → List Nat → List Nat → Bool
  | s :: ss, n :: ns, i :: is_ => (decide (n ≤ i) && decide (i < n + s)) && inPadRegion ss ns is_
  | _, _, _ => true

/-- Embedding of `center_pad(u, pad_width, cval=0)` from
`src/chromatix/utils/utils.py`: symmetric zero padding, `pad_width[i]`
pixels added on each side of axis `i` (`jnp.pad` with `[(n, n) for n in
pad_width]`). -/
def center_pad {α : Type} [Zero α] (u : NDArray α) (pad_width : List Nat) : NDArray α where
  shape := List.zipWith (fun s n => s + 2 * n) u.shape pad_width
  data := fun idx =>
    if inPadRegion u.shape pad_width idx then
      u.data (List.zipWith (fun i n => i - n) idx pad_width)
    else 0

/-- Embedding of `center_crop(u, crop_length)` from
`src/chromatix/utils/utils.py`: per axis the Python slice
`u[slice(n, size - n)]`, which for `n ≥ 0` keeps `max (size - 2*n) 0`
entries starting at offset `n` (Python slicing clamps, it never raises;
`Nat` subtraction models the clamping exactly). -/
def center_crop {α : Type} (u : NDArray α) (crop_length : List Nat) : NDArray α where
  shape := List.zipWith (fun s n => s - 2 * n) u.shape crop_length
  data := fun idx => u.data (List.zipWith (fun i n => i + n) idx crop_length)

lemma roundtrip_shape (ss ws : List Nat) (h : ws.length = ss.length) :
    List.zipWith (fun s n => s - 2 * n)
      (List.zipWith (fun s n => s + 2 * n) ss ws) ws = ss := by
  induction ss generalizing ws with
  | nil => cases ws <;> simp
  | cons s ss ih =>
    cases ws with
    | nil => simp at h
    | cons w ws =>
      simp only [List.zipWith, List.cons.injEq]
      refine ⟨by omega, ih ws (by simpa using h)⟩

lemma roundtrip_inPadRegion (ss ws idx : List Nat) (h : ws.length = ss.length)
    (hv : ValidIdx ss idx) :
    inPadRegion ss ws (List.zipWith (fun i n => i + n) idx ws) = true := by
  induction ss generalizing ws idx with
  | nil => cases ws <;> cases idx <;> simp [inPadRegion]
  | cons s ss ih =>
    cases ws with
    | nil => simp at h
    | cons w ws =>
      cases idx with
      | nil => exact absurd hv (by intro hv; cases hv)
      | cons i idx =>
        have hv' : i < s ∧ ValidIdx ss idx := by
          cases hv with
          | cons hh ht => exact ⟨hh, ht⟩
        simp only [List.zipWith, inPadRegion, Bool.and_eq_true, decide_eq_true_eq]
        exact ⟨⟨by omega, by omega⟩, ih ws idx (by simpa using h) hv'.2⟩

lemma roundtrip_index (ws idx : List Nat) :
    List.zipWith (fun i n => i - n)
      (List.zipWith (fun i n => i + n) idx ws) ws = idx.take ws.length := by
  induction idx generalizing ws with
  | nil => cases ws <;> simp
  | cons i idx ih =>
    cases ws with
    | nil => simp
    | cons w ws => simp [ih ws]

lemma validIdx_length {shape idx : List Nat} (hv : ValidIdx shape idx) :
    idx.length = shape.length :=
  List.Forall₂.length_eq hv

/-- C1. For every array `x` and per-axis non-negative widths `w` (one per
axis), `center_crop (center_pad x w) w` equals `x` exactly: symmetric
cropping with the same lengths inverts symmetric zero padding. -/
theorem pad_crop_roundtrip {α : Type} [Zero α] (x : NDArray α) (w : List Nat)
    (hw : w.length = x.shape.length) :
    NDArray.Eqv (center_crop (center_pad x w) w) x := by
  have hsh : (center_crop (center_pad x w) w).shape = x.shape :=
    roundtrip_shape x.shape w hw
  constructor
  · exact hsh
  · intro idx hv
    have hv' : ValidIdx x.shape idx := by rwa [hsh] at hv
    have hlen : idx.length = x.shape.length := validIdx_length hv'
    simp only [center_crop, center_pad]
    rw [roundtrip_inPadRegion x.shape w idx hw hv']
    rw [roundtrip_index]
    have hle : idx.length ≤ w.length := by omega
    rw [List.take_of_length_le hle]
    simp

/-- Witness for C1 at a concrete array: shape `[2, 3]`, widths `[1, 2]`. -/
theorem pad_crop_roundtrip_witness :
    NDArray.Eqv
      (center_crop (center_pad (NDArray.mk [2, 3] (fun _ => (5 : Int))) [1, 2]) [1, 2])
      (NDArray.mk [2, 3] (fun _ => (5 : Int))) :=
  pad_crop_roundtrip (NDArray.mk [2, 3] (fun _ => (5 : Int))) [1, 2] (by decide)

/-- C9, counterexample to the claim as stated: `center_crop` never raises.
At the concrete input `shape = [4]`, crop length `[3]` (which exceeds half
the axis size), the code returns an array — the Python slice
`slice(3, 4 - 3)` clamps to the empty range — with shape `[0]`, instead of
failing with a ShapeError. -/
theorem crop_overlong_returns_array :
    (center_crop (NDArray.mk [4] (fun _ => (0 : Int))) [3]).shape = [0] := by
  rfl

lemma crop_shape_getElem (ss cs : List Nat) (i s n : Nat)
    (hs : ss[i]? = some s) (hn : cs[i]? = some n) :
    (List.zipWith (fun s n => s - 2 * n) ss cs)[i]? = some (s - 2 * n) := by
  induction ss generalizing cs i with
  | nil => simp at hs
  | cons a ss ih =>
    cases cs with
    | nil => simp at hn
    | cons b cs =>
      cases i with
      | zero =>
        simp only [List.getElem?_cons_zero, Option.some.injEq] at hs hn
        simp [hs, hn]
      | succ i =>
        simp only [List.getElem?_cons_succ] at hs hn
        simpa using ih cs i hs hn

/-- C9, amended. If the crop length `n` on some axis exceeds half that
axis's size `s` (`s < 2 * n`), `center_crop` still returns an array; the
over-cropped axis is clamped to size `0` (the Python slice is empty). It
does not raise. -/
theorem crop_overlong_empty_axis {α : Type} (u : NDArray α) (cl : List Nat)
    (i s n : Nat) (hs : u.shape[i]? = some s) (hn : cl[i]? = some n)
    (hover : s < 2 * n) :
    (center_crop u cl).shape[i]? = some 0 := by
  have := crop_shape_getElem u.shape cl i s n hs hn
  simp only [center_crop] at *
  rw [this]
  congr 1
  omega

/-- Witness for the amended C9 at the concrete input of the
counterexample. -/
theorem crop_overlong_empty_axis_witness :
    (center_crop (NDArray.mk [4] (fun _ => (0 : Int))) [3]).shape[0]? = some 0 :=
  crop_overlong_empty_axis (NDArray.mk [4] (fun _ => (0 : Int))) [3] 0 4 3
    (by decide) (by decide) (by decide)

/-! ## Discrete Fourier transform

Model of the external FFT primitives (`chromatix.ops.fft`), consumed by the
propagation engine. Modelled from the spec: the spec only requires a
forward/inverse 2D Fourier transform pair over the spatial axes; we use the
standard discrete Fourier transform. -/

noncomputable def dft (N : Nat) (f : Nat → ℂ) (k : Nat) : ℂ :=
  ∑ h ∈ Finset.range N, f h * Complex.exp (-(2 * Real.pi * Complex.I) * k * h / N)

noncomputable def idft (N : Nat) (g : Nat → ℂ) (h : Nat) : ℂ :=
  (∑ k ∈ Finset.range N, g k * Complex.exp (2 * Real.pi * Complex.I * k * h / N)) / N

lemma two_pi_I_ne_zero : (2 * (Real.pi : ℂ) * Complex.I) ≠ 0 := by
  have hpi : (Real.pi : ℂ) ≠ 0 := by exact_mod_cast Real.pi_ne_zero
  simp [hpi, Complex.I_ne_zero]

lemma exp_ratio_ne_one (N : Nat) (d : Int) (hd : d ≠ 0) (hdlt : d.natAbs < N) :
    Complex.exp (2 * Real.pi * Complex.I * d / N) ≠ 1 := by
  have hN : 0 < N := lt_of_le_of_lt (Nat.zero_le _) hdlt
  have hNc : (N : ℂ) ≠ 0 := Nat.cast_ne_zero.mpr hN.ne'
  intro hone
  rw [Complex.exp_eq_one_iff] at hone
  obtain ⟨m, hm⟩ := hone
  have hdm : (d : ℂ) = m * N := by
    field_simp at hm
    have h2 : (2 * (Real.pi : ℂ) * Complex.I) * d = (2 * (Real.pi : ℂ) * Complex.I) * (m * N) := by
      linear_combination hm
    exact mul_left_cancel₀ two_pi_I_ne_zero h2
  have hdz : d = m * N := by exact_mod_cast hdm
  have hm0 : m ≠ 0 := by
    intro h0
    apply hd
    rw [hdz, h0, zero_mul]
  have habs : d.natAbs = m.natAbs * N := by
    rw [hdz, Int.natAbs_mul, Int.natAbs_ofNat]
  have hm1 : 1 ≤ m.natAbs := Nat.one_le_iff_ne_zero.mpr (Int.natAbs_ne_zero.mpr hm0)
  have hNle : N ≤ m.natAbs * N := by
    calc N = 1 * N := (one_mul N).symm
      _ ≤ m.natAbs * N := Nat.mul_le_mul_right N hm1
  omega

lemma sum_exp_kd (N : Nat) (hN : 0 < N) (d : Int) (hdlt : d.natAbs < N) :
    ∑ k ∈ Finset.range N, Complex.exp (2 * Real.pi * Complex.I * k * d / N)
      = if d = 0 then (N : ℂ) else 0 := by
  by_cases hd : d = 0
  · simp [hd]
  · rw [if_neg hd]
    have hζ : ∀ k : Nat, Complex.exp (2 * Real.pi * Complex.I * k * d / N)
        = Complex.exp (2 * Real.pi * Complex.I * d / N) ^ k := by
      intro k
      rw [← Complex.exp_nat_mul]
      congr 1
      ring
    simp only [hζ]
    rw [geom_sum_eq (exp_ratio_ne_one N d hd hdlt)]
    have hNc : (N : ℂ) ≠ 0 := Nat.cast_ne_zero.mpr hN.ne'
    have hpow : Complex.exp (2 * Real.pi * Complex.I * d / N) ^ N = 1 := by
      rw [← Complex.exp_nat_mul]
      have harg : (N : ℂ) * (2 * Real.pi * Complex.I * d / N)
          = d * (2 * Real.pi * Complex.I) := by
        field_simp
        ring
      rw [harg, Complex.exp_int_mul_two_pi_mul_I]
    rw [hpow]
    simp

/-- Inverse DFT of the DFT recovers the signal at every in-range index. -/
lemma idft_dft (N : Nat) (f : Nat → ℂ) (h : Nat) (hh : h < N) :
    idft N (dft N f) h = f h := by
  have hN : 0 < N := lt_of_le_of_lt (Nat.zero_le _) hh
  have hNc : (N : ℂ) ≠ 0 := Nat.cast_ne_zero.mpr hN.ne'
  have step1 : ∀ k : Nat,
      dft N f k * Complex.exp (2 * Real.pi * Complex.I * k * h / N)
      = ∑ h' ∈ Finset.range N,
          f h' * Complex.exp (2 * Real.pi * Complex.I * k * (((h : Int) - h' : Int) : ℂ) / N) := by
    intro k
    unfold dft
    rw [Finset.sum_mul]
    refine Finset.sum_congr rfl (fun h' _ => ?_)
    rw [mul_assoc, ← Complex.exp_add]
    congr 1
    push_cast
    ring
  unfold idft
  rw [Finset.sum_congr rfl (fun k _ => step1 k), Finset.sum_comm]
  have step2 : ∀ h' ∈ Finset.range N,
      (∑ k ∈ Finset.range N,
        f h' * Complex.exp (2 * Real.pi * Complex.I * k * (((h : Int) - h' : Int) : ℂ) / N))
      = f h' * (if ((h : Int) - h' = 0) then (N : ℂ) else 0) := by
    intro h' hmem
    rw [← Finset.mul_sum]
    congr 1
    exact sum_exp_kd N hN ((h : Int) - h') (by simp at hmem; omega)
  rw [Finset.sum_congr rfl step2]
  rw [Finset.sum_eq_single h (by intro b _ hb; rw [if_neg (by omega), mul_zero])
      (by intro habs; exact absurd (Finset.mem_range.mpr hh) habs)]
  rw [if_pos (by omega)]
  rw [mul_div_assoc, div_self hNc, mul_one]

/-- The inverse DFT is linear over finite sums with coefficients constant
in the transform variable. -/
lemma idft_sum {β : Type} (N : Nat) (s : Finset β) (F : β → Nat → ℂ) (c : β → ℂ)
    (h : Nat) :
    idft N (fun k => ∑ x ∈ s, F x k * c x) h = ∑ x ∈ s, idft N (F x) h * c x := by
  unfold idft
  simp only [Finset.sum_mul]
  rw [Finset.sum_comm, Finset.sum_div]
  refine Finset.sum_congr rfl (fun x _ => ?_)
  calc (∑ k ∈ Finset.range N,
          F x k * c x * Complex.exp (2 * Real.pi * Complex.I * k * h / N)) / N
      = (∑ k ∈ Finset.range N,
          F x k * Complex.exp (2 * Real.pi * Complex.I * k * h / N) * c x) / N := by
        rw [Finset.sum_congr rfl (fun k _ => mul_right_comm _ _ _)]
    _ = (∑ k ∈ Finset.range N,
          F x k * Complex.exp (2 * Real.pi * Complex.I * k * h / N)) * c x / N := by
        rw [Finset.sum_mul]
    _ = (∑ k ∈ Finset.range N,
          F x k * Complex.exp (2 * Real.pi * Complex.I * k * h / N)) / N * c x := by
        rw [div_mul_eq_mul_div]

/-- Two-dimensional DFT over the spatial axes, the model of `fft` from
`chromatix.ops.fft` (external; spec interface: forward 2D FFT over the
spatial axes, batched over the remaining axes). -/
noncomputable def fft2 (H W : Nat) (u : Nat → Nat → ℂ) (k l : Nat) : ℂ :=
  dft H (fun h => dft W (u h) l) k

/-- Two-dimensional inverse DFT, the model of `ifft`. -/
noncomputable def ifft2 (H W : Nat) (v : Nat → Nat → ℂ) (h w : Nat) : ℂ :=
  idft H (fun k => idft W (v k) w) h

lemma ifft2_fft2 (H W : Nat) (u : Nat → Nat → ℂ) (h w : Nat) (hh : h < H)
    (hw : w < W) : ifft2 H W (fft2 H W u) h w = u h w := by
  unfold ifft2 fft2
  have inner : ∀ k : Nat,
      idft W (fun l => dft H (fun h' => dft W (u h') l) k) w
        = dft H (fun h' => u h' w) k := by
    intro k
    have hrw : (fun l => dft H (fun h' => dft W (u h') l) k)
        = fun l => ∑ h' ∈ Finset.range H,
            dft W (u h') l * Complex.exp (-(2 * Real.pi * Complex.I) * k * h' / H) := by
      funext l
      rfl
    rw [hrw, idft_sum]
    show _ = ∑ h' ∈ Finset.range H,
        u h' w * Complex.exp (-(2 * Real.pi * Complex.I) * k * h' / H)
    refine Finset.sum_congr rfl (fun h' _ => ?_)
    exact congrArg
      (fun t => t * Complex.exp (-(2 * Real.pi * Complex.I) * k * h' / H))
      (idft_dft W (u h') w hw)
  have hfun : (fun k => idft W (fun l => dft H (fun h' => dft W (u h') l) k) w)
      = fun k => dft H (fun h' => u h' w) k := funext inner
  rw [hfun]
  exact idft_dft H _ h hh

/-! ## Field model

Model of the external `Field` container (spec section 3): a complex
amplitude over axes (batch, height, width, channel) with sample spacing
`dx`, wavelength `spectrum` and the precomputed squared-radius grid.
`replace` semantics is the Lean structure-update syntax. -/

structure Field where
  u : Nat → Nat → Nat → Nat → ℂ
  B : Nat
  H : Nat
  W : Nat
  C : Nat
  dx : ℝ
  spectrum : ℝ
  l2_sq_grid : Nat → Nat → ℝ

/-- Spatial padding of the amplitude by `p` pixels on each side of the two
spatial axes: `center_pad(u, [0, p, p, 0])` specialised to rank 4. -/
def pad_spatial (u : Nat → Nat → Nat → Nat → ℂ) (H W p : Nat) :
    Nat → Nat → Nat → Nat → ℂ :=
  fun b h w c =>
    if p ≤ h ∧ h < p + H ∧ p ≤ w ∧ w < p + W then u b (h - p) (w - p) c else 0

/-- Spatial cropping of the amplitude by `p` pixels on each side of the two
spatial axes: `center_crop(u, [0, p, p, 0])` specialised to rank 4. -/
def crop_spatial (u : Nat → Nat → Nat → Nat → ℂ) (p : Nat) :
    Nat → Nat → Nat → Nat → ℂ :=
  fun b h w c => u b (h + p) (w + p) c

/-- Model of `jnp.fft.fftfreq(S, d)`: frequency bin `k` maps to `k/(S*d)`
for `k` below `⌈S/2⌉` and to `(k - S)/(S*d)` above. -/
noncomputable def fftfreq (S : Nat) (d : ℝ) (k : Nat) : ℝ :=
  if k < (S + 1) / 2 then (k : ℝ) / (S * d) else ((k : ℝ) - S) / (S * d)

/-- Model of `jnp.fft.fftshift` on the two spatial axes: a cyclic roll by
half the axis size. -/
def fftshift_spatial (H W : Nat) (v : Nat → Nat → Nat → Nat → ℂ) :
    Nat → Nat → Nat → Nat → ℂ :=
  fun b k l c => v b ((k + (H - H / 2)) % H) ((l + (W - W / 2)) % W) c

/-- The 2D forward FFT applied to the spatial axes of a rank-4 amplitude. -/
noncomputable def fft_field_u (Hp Wp : Nat) (u : Nat → Nat → Nat → Nat → ℂ) :
    Nat → Nat → Nat → Nat → ℂ :=
  fun b k l c => fft2 Hp Wp (fun h w => u b h w c) k l

/-- The 2D inverse FFT applied to the spatial axes of a rank-4 amplitude. -/
noncomputable def ifft_field_u (Hp Wp : Nat) (v : Nat → Nat → Nat → Nat → ℂ) :
    Nat → Nat → Nat → Nat → ℂ :=
  fun b h w c => ifft2 Hp Wp (fun k l => v b k l c) h w

/-- Output mode of `transfer_propagate` / `exact_propagate`. The source
dispatches on the strings "full" and "same" and raises on anything else;
the two legal values are modelled as an inductive type. -/
inductive Mode where
  | full
  | same
deriving DecidableEq

/-! ## Propagation engine (`src/chromatix/functional/propagate.py`) -/

/-- Kernel term of the exact method: `1 - (spectrum/n)^2*(fx^2+fy^2)`
clamped below at `0` (`jnp.maximum(kernel, 0.0)`, removing evanescent
waves). -/
noncomputable def exact_kernel (spectrum n fx fy : ℝ) : ℝ :=
  max (1 - (spectrum / n) ^ 2 * (fx ^ 2 + fy ^ 2)) 0

/-- Propagation phase of the exact method:
`2*pi*(z*n/spectrum)*sqrt(kernel)`. -/
noncomputable def exact_phase (spectrum n z fx fy : ℝ) : ℝ :=
  2 * Real.pi * (z * n / spectrum) * Real.sqrt (exact_kernel spectrum n fx fy)

/-- The pad/FFT/kernel-multiply/IFFT/mode-crop procedure shared verbatim by
`transfer_propagate` and `exact_propagate` in the source (the spec notes the
exact method uses the "same pad/FFT/multiply/IFFT/mode-crop procedure as
transfer method"): pad the spatial axes by `N_pad/2` on each side, forward
FFT, multiply by `exp(i * phase)`, inverse FFT, then return the padded
("full") or cropped-back ("same") field. -/
noncomputable def kernel_fft_step (f : Field) (phase : Nat → Nat → ℝ)
    (N_pad : Nat) (mode : Mode) : Field :=
  let p := N_pad / 2
  let Hp := f.H + 2 * p
  let Wp := f.W + 2 * p
  let up := pad_spatial f.u f.H f.W p
  let v : Nat → Nat → Nat → Nat → ℂ := fun b k l c =>
    fft_field_u Hp Wp up b k l c * Complex.exp (Complex.I * phase k l)
  let u2 := ifft_field_u Hp Wp v
  match mode with
  | Mode.full => { f with u := u2, H := Hp, W := Wp }
  | Mode.same => { f with u := crop_spatial u2 p, H := Hp - 2 * p, W := Wp - 2 * p }

/-- Embedding of `transfer_propagate`: the shared FFT procedure with the
paraxial phase `-pi * L^2 * (fx^2 + fy^2)` on the padded frequency grid,
`L = sqrt(spectrum * z / n)`. -/
noncomputable def transfer_propagate (f : Field) (z n : ℝ) (N_pad : Nat)
    (mode : Mode) : Field :=
  let L := Real.sqrt (f.spectrum * z / n)
  let S := f.H + N_pad
  kernel_fft_step f
    (fun k l => -Real.pi * L ^ 2 * (fftfreq S f.dx k ^ 2 + fftfreq S f.dx l ^ 2))
    N_pad mode

/-- Embedding of `exact_propagate`: the shared FFT procedure with the
non-paraxial angular-spectrum phase built from the clamped kernel. -/
noncomputable def exact_propagate (f : Field) (z n : ℝ) (N_pad : Nat)
    (mode : Mode) : Field :=
  let S := f.H + N_pad
  kernel_fft_step f
    (fun k l => exact_phase f.spectrum n z (fftfreq S f.dx k) (fftfreq S f.dx l))
    N_pad mode

/-- Embedding of `transform_propagate` (single-FFT Fresnel transform):
input quadratic phase, pad, FFT with zero-frequency shift, crop back,
rescale by `(dx/L)^2`, output quadratic phase on the rescaled grid; the
output sample spacing becomes `du = L^2 / ((H + N_pad) * dx)`. -/
noncomputable def transform_propagate (f : Field) (z n : ℝ) (N_pad : Nat) :
    Field :=
  let L := Real.sqrt (f.spectrum * z / n)
  let norm := (f.dx / L) ^ 2
  let input_phase : Nat → Nat → ℝ := fun h w => Real.pi * f.l2_sq_grid h w / L ^ 2
  let du := L ^ 2 / ((f.H + N_pad) * f.dx)
  let output_phase : Nat → Nat → ℝ := fun h w =>
    Real.pi * (f.l2_sq_grid h w * (du / f.dx) ^ 2) / L ^ 2
  let p := N_pad / 2
  let Hp := f.H + 2 * p
  let Wp := f.W + 2 * p
  let u1 : Nat → Nat → Nat → Nat → ℂ := fun b h w c =>
    f.u b h w c * Complex.exp (Complex.I * input_phase h w)
  let u2 := pad_spatial u1 f.H f.W p
  let u3 := fftshift_spatial Hp Wp (fft_field_u Hp Wp u2)
  let u4 := crop_spatial u3 p
  let u5 : Nat → Nat → Nat → Nat → ℂ := fun b h w c =>
    u4 b h w c * ((norm : ℂ) * Complex.exp (Complex.I * output_phase h w))
  { f with u := u5, dx := du }

/-- C2. The kernel built by `exact_propagate` is clamped below at `0` (so
it is never negative), and every frequency component with
`(spectrum/n)^2 * (fx^2 + fy^2) > 1` — an evanescent wave — receives
propagation phase exactly `0`, never an imaginary or undefined value. -/
theorem exact_kernel_clamped (spectrum n z fx fy : ℝ) :
    0 ≤ exact_kernel spectrum n fx fy ∧
    ((spectrum / n) ^ 2 * (fx ^ 2 + fy ^ 2) > 1 →
      exact_kernel spectrum n fx fy = 0 ∧ exact_phase spectrum n z fx fy = 0) := by
  constructor
  · exact le_max_right _ _
  · intro hgt
    have hk : exact_kernel spectrum n fx fy = 0 := by
      unfold exact_kernel
      rw [max_eq_right]
      linarith
    refine ⟨hk, ?_⟩
    unfold exact_phase
    rw [hk, Real.sqrt_zero, mul_zero]

/-- Witness for C2 at `spectrum = 2`, `n = 1`, `z = 5`, `fx = 1`,
`fy = 0`, where `(spectrum/n)^2 * (fx^2 + fy^2) = 4 > 1`. -/
theorem exact_kernel_clamped_witness :
    ((2 : ℝ) / 1) ^ 2 * ((1 : ℝ) ^ 2 + (0 : ℝ) ^ 2) > 1 ∧
    exact_kernel 2 1 1 0 = 0 ∧ exact_phase 2 1 5 1 0 = 0 :=
  ⟨by norm_num, ((exact_kernel_clamped 2 1 5 1 0).2 (by norm_num)).1,
    ((exact_kernel_clamped 2 1 5 1 0).2 (by norm_num)).2⟩

/-- C3. With mode "same" and even `N_pad`, both `transfer_propagate` and
`exact_propagate` preserve the spatial shape and the sample spacing `dx`
of the input field, whereas `transform_propagate` always returns a field
whose sample spacing is `du = L^2 / ((H + N_pad) * dx)` with
`L = sqrt(spectrum * z / n)`. -/
theorem propagate_shape_dx_invariants (f : Field) (z n : ℝ) (N_pad : Nat)
    (_hEven : Even N_pad) :
    ((transfer_propagate f z n N_pad Mode.same).H = f.H ∧
     (transfer_propagate f z n N_pad Mode.same).W = f.W ∧
     (transfer_propagate f z n N_pad Mode.same).dx = f.dx) ∧
    ((exact_propagate f z n N_pad Mode.same).H = f.H ∧
     (exact_propagate f z n N_pad Mode.same).W = f.W ∧
     (exact_propagate f z n N_pad Mode.same).dx = f.dx) ∧
    (transform_propagate f z n N_pad).dx
      = Real.sqrt (f.spectrum * z / n) ^ 2 / ((f.H + N_pad) * f.dx) := by
  refine ⟨⟨?_, ?_, rfl⟩, ⟨?_, ?_, rfl⟩, rfl⟩ <;>
    simp [transfer_propagate, exact_propagate, kernel_fft_step]

/-- Witness for C3 at a concrete field and `N_pad = 2`. -/
theorem propagate_shape_dx_invariants_witness :
    (((transfer_propagate (Field.mk (fun _ _ _ _ => 1) 1 4 4 1 (3/10) (1/2)
        (fun _ _ => 0)) 7 1 2 Mode.same).H = 4) ∧
     ((transfer_propagate (Field.mk (fun _ _ _ _ => 1) 1 4 4 1 (3/10) (1/2)
        (fun _ _ => 0)) 7 1 2 Mode.same).dx = (3/10 : ℝ))) ∧
    Even 2 :=
  ⟨⟨(propagate_shape_dx_invariants (Field.mk (fun _ _ _ _ => 1) 1 4 4 1 (3/10)
      (1/2) (fun _ _ => 0)) 7 1 2 (by decide)).1.1,
    (propagate_shape_dx_invariants (Field.mk (fun _ _ _ _ => 1) 1 4 4 1 (3/10)
      (1/2) (fun _ _ => 0)) 7 1 2 (by decide)).1.2.2⟩, by decide⟩

/-! ## Dispatcher `propagate` and the zero-distance / Nyquist claims -/

/-- Propagation method selector; the source dispatches on the strings
"transform", "transfer", "exact" and raises on anything else. -/
inductive Method where
  | transform
  | transfer
  | exact
deriving DecidableEq

/-- Automatic pad amount: `N = int(ceil((Q * M) / 2) * 2)`,
`N_pad = N - M`, as computed in `propagate`. -/
noncomputable def auto_N_pad (Q : ℝ) (M : Nat) : Nat :=
  (Int.ceil (Q * M / 2) * 2 - M).toNat

/-- Embedding of the dispatcher `propagate`: computes the Fresnel number
`Nf = (D/2)^2 / (spectrum * z)` and minimum pad ratio
`Q = 2 * max(1, M / (4 * Nf))`, fills in `N_pad` from `Q` when the caller
did not supply one, and dispatches on the method. In the exact branch with
automatic padding the source asserts the sampling precondition
`scale < 1` with `scale = spectrum / (2 * dx)` and inflates `Q` by
`1 / sqrt(1 - scale^2)`; the assertion failure is surfaced as
`Except.error`. -/
noncomputable def propagate (f : Field) (z n : ℝ) (method : Method)
    (mode : Mode) (N_pad : Option Nat) : Except String Field :=
  let D := f.H * f.dx
  let Nf := (D / 2) ^ 2 / (f.spectrum * z)
  let M := f.H
  let Q := 2 * max 1 ((M : ℝ) / (4 * Nf))
  match method with
  | Method.transform =>
      Except.ok (transform_propagate f z n (N_pad.getD (auto_N_pad Q M)))
  | Method.transfer =>
      Except.ok (transfer_propagate f z n (N_pad.getD (auto_N_pad Q M)) mode)
  | Method.exact =>
      match N_pad with
      | some np => Except.ok (exact_propagate f z n np mode)
      | none =>
          let scale := f.spectrum / (2 * f.dx)
          if scale < 1 then
            Except.ok (exact_propagate f z n
              (auto_N_pad (Q / Real.sqrt (1 - scale ^ 2)) M) mode)
          else Except.error "Cannot do exact transfer when dx < lambda / 2"

/-- The uniform plane-wave field of the spec's scenario: all ones, 64 x 64,
single batch and channel, `dx = 0.3`, `spectrum = 0.5`, with the squared
radius grid of `create_grid((64, 64), 0.3)`. -/
noncomputable def onesField : Field :=
  Field.mk (fun _ _ _ _ => 1) 1 64 64 1 (3 / 10) (1 / 2)
    (fun h w => (((h : ℝ) - 32 + 1 / 2) * (3 / 10)) ^ 2
      + (((w : ℝ) - 32 + 1 / 2) * (3 / 10)) ^ 2)

/-- A concrete field that violates the Nyquist condition of the exact
method: `spectrum = 1`, `dx = 1/4`, so `scale = spectrum/(2*dx) = 2`. -/
noncomputable def nyquistField : Field :=
  Field.mk (fun _ _ _ _ => 1) 1 4 4 1 (1 / 4) 1
    (fun h w => (((h : ℝ) - 2 + 1 / 2) * (1 / 4)) ^ 2
      + (((w : ℝ) - 2 + 1 / 2) * (1 / 4)) ^ 2)

lemma ifft_fft_mul_one (Hn Wn : Nat) (u : Nat → Nat → Nat → Nat → ℂ)
    (phase : Nat → Nat → ℝ) (hphase : ∀ k l, phase k l = 0)
    (b h w c : Nat) (hh : h < Hn) (hw : w < Wn) :
    ifft_field_u Hn Wn (fun b k l c =>
      fft_field_u Hn Wn (pad_spatial u Hn Wn 0) b k l c
        * Complex.exp (Complex.I * (phase k l : ℝ))) b h w c = u b h w c := by
  have hfun : (fun k l => fft_field_u Hn Wn (pad_spatial u Hn Wn 0) b k l c
      * Complex.exp (Complex.I * (phase k l : ℝ)))
      = fft2 Hn Wn (fun hh ww => pad_spatial u Hn Wn 0 b hh ww c) := by
    funext k l
    rw [hphase k l]
    simp [fft_field_u]
  show ifft2 Hn Wn (fun k l => fft_field_u Hn Wn (pad_spatial u Hn Wn 0) b k l c
    * Complex.exp (Complex.I * (phase k l : ℝ))) h w = u b h w c
  rw [hfun, ifft2_fft2 Hn Wn _ h w hh hw]
  unfold pad_spatial
  have hcond : 0 ≤ h ∧ h < 0 + Hn ∧ 0 ≤ w ∧ w < 0 + Wn := by
    refine ⟨Nat.zero_le _, by omega, Nat.zero_le _, by omega⟩
  rw [if_pos hcond]
  simp

lemma kernel_fft_step_zero_phase (f : Field) (phase : Nat → Nat → ℝ)
    (hphase : ∀ k l, phase k l = 0) (mode : Mode) :
    (kernel_fft_step f phase 0 mode).H = f.H ∧
    (kernel_fft_step f phase 0 mode).W = f.W ∧
    (kernel_fft_step f phase 0 mode).dx = f.dx ∧
    (kernel_fft_step f phase 0 mode).spectrum = f.spectrum ∧
    ∀ b h w c, h < f.H → w < f.W →
      (kernel_fft_step f phase 0 mode).u b h w c = f.u b h w c := by
  cases mode with
  | full =>
      refine ⟨rfl, rfl, rfl, rfl, fun b h w c hh hw => ?_⟩
      exact ifft_fft_mul_one f.H f.W f.u phase hphase b h w c hh hw
  | same =>
      refine ⟨rfl, rfl, rfl, rfl, fun b h w c hh hw => ?_⟩
      exact ifft_fft_mul_one f.H f.W f.u phase hphase b h w c hh hw

/-- C6, amended. With `z = 0` and zero supplied padding, the transfer and
exact methods return the field unchanged (same shape, `dx`, `spectrum`,
and amplitude at every valid index); see
`transform_zero_distance_changes_dx` for why the transform method does
not. -/
theorem propagate_zero_distance_identity (f : Field) (n : ℝ) (mode : Mode)
    (method : Method)
    (hm : method = Method.transfer ∨ method = Method.exact) :
    ∃ g : Field, propagate f 0 n method mode (some 0) = Except.ok g ∧
      g.H = f.H ∧ g.W = f.W ∧ g.dx = f.dx ∧ g.spectrum = f.spectrum ∧
      ∀ b h w c, h < f.H → w < f.W → g.u b h w c = f.u b h w c := by
  rcases hm with h | h <;> subst h
  · refine ⟨transfer_propagate f 0 n 0 mode, rfl, ?_⟩
    have hphase : ∀ k l : Nat, -Real.pi * Real.sqrt (f.spectrum * 0 / n) ^ 2
        * (fftfreq (f.H + 0) f.dx k ^ 2 + fftfreq (f.H + 0) f.dx l ^ 2) = 0 := by
      intro k l
      rw [mul_zero, zero_div, Real.sqrt_zero]
      ring
    exact kernel_fft_step_zero_phase f _ hphase mode
  · refine ⟨exact_propagate f 0 n 0 mode, rfl, ?_⟩
    have hphase : ∀ k l : Nat, exact_phase f.spectrum n 0
        (fftfreq (f.H + 0) f.dx k) (fftfreq (f.H + 0) f.dx l) = 0 := by
      intro k l
      unfold exact_phase
      rw [zero_mul, zero_div, mul_zero, zero_mul]
    exact kernel_fft_step_zero_phase f _ hphase mode

/-- Witness for the amended C6 on the spec's uniform plane wave. -/
theorem propagate_zero_distance_identity_witness :
    ∃ g : Field, propagate onesField 0 1 Method.transfer Mode.full (some 0)
        = Except.ok g ∧
      g.H = onesField.H ∧ g.W = onesField.W ∧ g.dx = onesField.dx ∧
      g.spectrum = onesField.spectrum ∧
      ∀ b h w c, h < onesField.H → w < onesField.W →
        g.u b h w c = onesField.u b h w c :=
  propagate_zero_distance_identity onesField 1 Mode.full Method.transfer
    (Or.inl rfl)

/-- C6, counterexample to the claim as stated. On the spec's own scenario
field (all-ones 64 x 64, `dx = 0.3`, `spectrum = 0.5`) with `z = 0` and
zero padding, the transform method does not return the field unchanged:
`L = sqrt(spectrum * 0 / n) = 0`, so the output sample spacing
`du = L^2 / ((64 + 0) * dx)` is `0`, not the input `dx = 0.3` (the code
also divides by `L = 0` in its phase factors). -/
theorem transform_zero_distance_changes_dx :
    propagate onesField 0 1 Method.transform Mode.full (some 0)
      = Except.ok (transform_propagate onesField 0 1 0) ∧
    (transform_propagate onesField 0 1 0).dx = 0 ∧
    onesField.dx = 3 / 10 ∧ (0 : ℝ) ≠ 3 / 10 := by
  refine ⟨rfl, ?_, rfl, by norm_num⟩
  show Real.sqrt (onesField.spectrum * 0 / 1) ^ 2
      / (((onesField.H : ℝ) + ((0 : Nat) : ℝ)) * onesField.dx) = 0
  rw [mul_zero, zero_div, Real.sqrt_zero]
  norm_num

/-- C7, counterexample to the claim as stated. When the caller supplies
`N_pad`, the exact branch of `propagate` never checks the sampling
precondition: on a field with `scale = spectrum/(2*dx) = 2 >= 1` and a
supplied `N_pad = 0`, the call returns a field instead of failing. -/
theorem exact_supplied_pad_skips_scale_check :
    propagate nyquistField 1 1 Method.exact Mode.full (some 0)
      = Except.ok (exact_propagate nyquistField 1 1 0 Mode.full) ∧
    nyquistField.spectrum / (2 * nyquistField.dx) = 2 :=
  ⟨rfl, by norm_num [nyquistField]⟩

/-- C7, amended. Only when the caller did not supply `N_pad` does the
exact branch evaluate the sampling precondition: then, whenever
`scale = spectrum / (2 * dx) >= 1`, `propagate` with method "exact" fails
with the sampling precondition error, for every `z`, `n` and mode. -/
theorem exact_auto_pad_scale_error (f : Field) (z n : ℝ) (mode : Mode)
    (hscale : 1 ≤ f.spectrum / (2 * f.dx)) :
    propagate f z n Method.exact mode none
      = Except.error "Cannot do exact transfer when dx < lambda / 2" := by
  unfold propagate
  simp only [if_neg (not_lt.mpr hscale)]

/-- Witness for the amended C7 on the concrete Nyquist-violating field. -/
theorem exact_auto_pad_scale_error_witness :
    1 ≤ nyquistField.spectrum / (2 * nyquistField.dx) ∧
    propagate nyquistField 1 1 Method.exact Mode.full none
      = Except.error "Cannot do exact transfer when dx < lambda / 2" :=
  ⟨by norm_num [nyquistField],
    exact_auto_pad_scale_error nyquistField 1 1 Mode.full
      (by norm_num [nyquistField])⟩

/-! ## Sample interaction model (`src/chromatix/functional/samples.py`) -/

/-- Embedding of `thin_sample`: multiplies the field amplitude pointwise by
`exp(1j * 2*pi * (dn + 1j*absorption) * thickness / spectrum)`. The
external `Field.__mul__` (modelled from the spec: operators "multiply the
field amplitude" and return a new field sharing every other attribute)
keeps all remaining attributes. `absorption`, `dn` and `thickness` have
the field's rank, as the source's `assert_rank` preconditions require; a
scalar thickness is the constant function. -/
noncomputable def thin_sample (f : Field)
    (absorption dn : Nat → Nat → Nat → Nat → ℝ)
    (thickness : Nat → Nat → Nat → Nat → ℝ) : Field :=
  { f with u := fun b h w c => f.u b h w c *
      Complex.exp (Complex.I * 2 * (Real.pi : ℂ) *
        ((dn b h w c : ℂ) + Complex.I * (absorption b h w c : ℂ))
        * (thickness b h w c : ℂ) / (f.spectrum : ℂ)) }

/-- C4. `thin_sample` multiplies the amplitude pointwise by
`exp(1j * 2*pi * (dn + 1j*absorption) * thickness / spectrum)` and leaves
every other field attribute — shape, `dx`, `spectrum` and the grid —
unchanged, for scalar (constant) or per-pixel thickness. -/
theorem thin_sample_correct (f : Field) (a d t : Nat → Nat → Nat → Nat → ℝ)
    (b h w c : Nat) :
    (thin_sample f a d t).u b h w c = f.u b h w c *
      Complex.exp (Complex.I * 2 * (Real.pi : ℂ) *
        ((d b h w c : ℂ) + Complex.I * (a b h w c : ℂ))
        * (t b h w c : ℂ) / (f.spectrum : ℂ)) ∧
    (thin_sample f a d t).dx = f.dx ∧
    (thin_sample f a d t).spectrum = f.spectrum ∧
    (thin_sample f a d t).l2_sq_grid = f.l2_sq_grid ∧
    (thin_sample f a d t).H = f.H ∧ (thin_sample f a d t).W = f.W ∧
    (thin_sample f a d t).B = f.B ∧ (thin_sample f a d t).C = f.C :=
  ⟨rfl, rfl, rfl, rfl, rfl, rfl, rfl, rfl⟩

/-- Slice stack (`absorption_stack` / `dn_stack`): `D` slices, each a 2D
array of shape `Hs x Ws`. -/
structure Stack where
  D : Nat
  Hs : Nat
  Ws : Nat
  data : Nat → Nat → Nat → ℝ

/-- Modelled from the spec: the external helper `_broadcast_2d_to_spatial`
expands a 2D array to the field's full batch+channel rank. -/
def broadcast_2d_to_spatial (a : Nat → Nat → ℝ) : Nat → Nat → Nat → Nat → ℝ :=
  fun _ h w _ => a h w

/-- Modelled from the spec: the external field-level `pad(field, N_pad)`
from `chromatix.ops.field` symmetrically pads the field's spatial axes
(`N_pad/2` pixels on each side, the repository's convention throughout the
propagation code). -/
def field_pad (f : Field) (N_pad : Nat) : Field :=
  { f with u := pad_spatial f.u f.H f.W (N_pad / 2),
           H := f.H + 2 * (N_pad / 2), W := f.W + 2 * (N_pad / 2) }

/-- Modelled from the spec: the external field-level `crop(field, N_pad)`,
restoring the pre-padding spatial size. -/
def field_crop (f : Field) (N_pad : Nat) : Field :=
  { f with u := crop_spatial f.u (N_pad / 2),
           H := f.H - 2 * (N_pad / 2), W := f.W - 2 * (N_pad / 2) }

/-- Modelled from the spec: `compute_exact_propagator(field, z, n)` builds
the exact-method frequency-domain transfer function (phase only, no FFT)
on the field's current spatial grid; the orientation `kykx` stays at its
zero default, as in the claims. -/
noncomputable def compute_exact_propagator (f : Field) (z n : ℝ) :
    Nat → Nat → Nat → Nat → ℂ :=
  fun _ k l _ => Complex.exp (Complex.I *
    (exact_phase f.spectrum n z (fftfreq f.H f.dx k) (fftfreq f.H f.dx l) : ℝ))

/-- Modelled from the spec: `kernel_propagate(field, propagator)` applies a
precomputed frequency-domain propagator — forward FFT, pointwise multiply,
inverse FFT, no padding. -/
noncomputable def kernel_propagate (f : Field)
    (prop : Nat → Nat → Nat → Nat → ℂ) : Field :=
  { f with u := fun b h w c =>
      ifft2 f.H f.W (fun k l =>
        fft2 f.H f.W (fun hh ww => f.u b hh ww c) k l * prop b k l c) h w }

/-- Embedding of `multislice_thick_sample`: validate that the two stacks
have identical shape (the `assert_equal_shape` failure is `none`), pad the
field by `N_pad`, compute the exact one-slice propagator when none is
supplied, alternate `thin_sample` and `kernel_propagate` over the slices
in entry-to-exit order, propagate backward by half the total stack
thickness with the exact method and zero extra padding, and crop back. -/
noncomputable def multislice_thick_sample (f : Field)
    (absorption_stack dn_stack : Stack) (n thickness_per_slice : ℝ)
    (N_pad : Nat) (propagator : Option (Nat → Nat → Nat → Nat → ℂ)) :
    Option Field :=
  if (absorption_stack.D, absorption_stack.Hs, absorption_stack.Ws)
      = (dn_stack.D, dn_stack.Hs, dn_stack.Ws) then
    let f1 := field_pad f N_pad
    let prop := propagator.getD
      (compute_exact_propagator f1 thickness_per_slice n)
    let f2 := (List.range absorption_stack.D).foldl
      (fun fld i =>
        kernel_propagate
          (thin_sample fld
            (broadcast_2d_to_spatial (absorption_stack.data i))
            (broadcast_2d_to_spatial (dn_stack.data i))
            (fun _ _ _ _ => thickness_per_slice))
          prop) f1
    let half := thickness_per_slice * (absorption_stack.D : ℝ) / 2
    let f3 := exact_propagate f2 (-half) n 0 Mode.full
    some (field_crop f3 N_pad)
  else none

lemma pad_spatial_zero_valid (u : Nat → Nat → Nat → Nat → ℂ)
    (Hn Wn b h w c : Nat) (hh : h < Hn) (hw : w < Wn) :
    pad_spatial u Hn Wn 0 b h w c = u b h w c := by
  unfold pad_spatial
  rw [if_pos ⟨Nat.zero_le _, by omega, Nat.zero_le _, by omega⟩]
  simp

lemma fft2_pad_zero (Hn Wn : Nat) (u : Nat → Nat → Nat → Nat → ℂ)
    (b c k l : Nat) :
    fft2 Hn Wn (fun h w => pad_spatial u Hn Wn 0 b h w c) k l
      = fft2 Hn Wn (fun h w => u b h w c) k l := by
  unfold fft2 dft
  refine Finset.sum_congr rfl (fun h hmem => ?_)
  rw [Finset.mem_range] at hmem
  congr 1
  refine Finset.sum_congr rfl (fun w hwmem => ?_)
  rw [Finset.mem_range] at hwmem
  exact congrArg
    (fun x => x * Complex.exp (-(2 * Real.pi * Complex.I) * l * w / Wn))
    (pad_spatial_zero_valid u Hn Wn b h w c hmem hwmem)

/-- Applying the precomputed exact propagator with `kernel_propagate`
equals `exact_propagate` with zero padding in "full" mode. -/
lemma kernel_propagate_exact (f : Field) (z n : ℝ) :
    kernel_propagate f (compute_exact_propagator f z n)
      = exact_propagate f z n 0 Mode.full := by
  have hfun : (fun b h w c => ifft2 f.H f.W
        (fun k l => fft2 f.H f.W (fun hh ww => f.u b hh ww c) k l
          * compute_exact_propagator f z n b k l c) h w)
      = (fun b h w c => ifft2 f.H f.W
        (fun k l => fft2 f.H f.W (fun hh ww => pad_spatial f.u f.H f.W 0 b hh ww c) k l
          * compute_exact_propagator f z n b k l c) h w) := by
    funext b h w c
    congr 1
    funext k l
    rw [fft2_pad_zero]
  exact congrArg (fun uu => { f with u := uu }) hfun

/-- The claim's right-hand side for C5 (stated from the claim's words):
pad by `N_pad`, apply `thin_sample` once with the single slice's
absorption and `dn`, propagate forward one slice thickness with the exact
method, propagate backward half the stack thickness (`thickness/2` for
depth 1) — the midplane convention — then crop back. -/
noncomputable def singleSliceDecomposition (f : Field) (a d : Nat → Nat → ℝ)
    (n t : ℝ) (N_pad : Nat) : Field :=
  let f1 := field_pad f N_pad
  let f2 := thin_sample f1 (broadcast_2d_to_spatial a)
    (broadcast_2d_to_spatial d) (fun _ _ _ _ => t)
  let f3 := exact_propagate f2 t n 0 Mode.full
  let f4 := exact_propagate f3 (-(t / 2)) n 0 Mode.full
  field_crop f4 N_pad

/-- C5. For a depth-1 stack, `multislice_thick_sample` (with no supplied
propagator) equals the decomposition: pad by `N_pad`, one `thin_sample`
with that slice's absorption and `dn`, forward exact propagation by the
slice thickness, backward exact propagation by half the stack thickness,
crop back. -/
theorem multislice_single_slice (f : Field) (aS dS : Stack) (n t : ℝ)
    (N_pad : Nat) (hD : aS.D = 1)
    (hshape : (aS.D, aS.Hs, aS.Ws) = (dS.D, dS.Hs, dS.Ws)) :
    multislice_thick_sample f aS dS n t N_pad none
      = some (singleSliceDecomposition f (aS.data 0) (dS.data 0) n t N_pad) := by
  unfold multislice_thick_sample singleSliceDecomposition
  rw [if_pos hshape, hD]
  have hr : List.range 1 = [0] := rfl
  rw [hr]
  simp only [List.foldl_cons, List.foldl_nil, Option.getD_none,
    Nat.cast_one, mul_one]
  have hprop : compute_exact_propagator (field_pad f N_pad) t n
      = compute_exact_propagator
          (thin_sample (field_pad f N_pad)
            (broadcast_2d_to_spatial (aS.data 0))
            (broadcast_2d_to_spatial (dS.data 0))
            (fun _ _ _ _ => t)) t n := rfl
  rw [hprop, kernel_propagate_exact]

/-- Witness for C5 at a concrete field and depth-1 stacks. -/
theorem multislice_single_slice_witness :
    multislice_thick_sample onesField (Stack.mk 1 2 2 (fun _ _ _ => 0))
      (Stack.mk 1 2 2 (fun _ _ _ => 1)) 1 1 0 none
      = some (singleSliceDecomposition onesField
          ((Stack.mk 1 2 2 (fun _ _ _ => (0 : ℝ))).data 0)
          ((Stack.mk 1 2 2 (fun _ _ _ => (1 : ℝ))).data 0) 1 1 0) :=
  multislice_single_slice onesField (Stack.mk 1 2 2 (fun _ _ _ => 0))
    (Stack.mk 1 2 2 (fun _ _ _ => 1)) 1 1 0 rfl (by decide)

/-- C8. `multislice_thick_sample` produces no field when the two stacks'
shapes (depth, height, width) disagree, and proceeds to a field when the
shapes are identical. -/
theorem multislice_shape_validation (f : Field) (aS dS : Stack) (n t : ℝ)
    (N_pad : Nat) (prop : Option (Nat → Nat → Nat → Nat → ℂ)) :
    ((aS.D, aS.Hs, aS.Ws) ≠ (dS.D, dS.Hs, dS.Ws) →
      multislice_thick_sample f aS dS n t N_pad prop = none) ∧
    ((aS.D, aS.Hs, aS.Ws) = (dS.D, dS.Hs, dS.Ws) →
      (multislice_thick_sample f aS dS n t N_pad prop).isSome = true) := by
  constructor
  · intro hne
    unfold multislice_thick_sample
    rw [if_neg hne]
  · intro heq
    unfold multislice_thick_sample
    rw [if_pos heq]
    rfl

/-- Witness for C8: stacks of shape (1,2,2) vs (2,2,2) are rejected;
identically shaped stacks proceed. -/
theorem multislice_shape_validation_witness :
    multislice_thick_sample onesField (Stack.mk 1 2 2 (fun _ _ _ => 0))
      (Stack.mk 2 2 2 (fun _ _ _ => 0)) 1 1 0 none = none ∧
    (multislice_thick_sample onesField (Stack.mk 1 2 2 (fun _ _ _ => 0))
      (Stack.mk 1 2 2 (fun _ _ _ => 0)) 1 1 0 none).isSome = true :=
  ⟨(multislice_shape_validation onesField (Stack.mk 1 2 2 (fun _ _ _ => 0))
      (Stack.mk 2 2 2 (fun _ _ _ => 0)) 1 1 0 none).1 (by decide),
   (multislice_shape_validation onesField (Stack.mk 1 2 2 (fun _ _ _ => 0))
      (Stack.mk 1 2 2 (fun _ _ _ => 0)) 1 1 0 none).2 (by decide)⟩

/-! ## Polarization operators (`src/chromatix/functional/polarizers.py`) -/

/-- Model of the external `VectorField`: an amplitude with a 3-component
polarization axis (component order z, y, x) at every (batch, height,
width, channel) position, plus the shared field attributes. -/
structure VectorField where
  u : Nat → Nat → Nat → Nat → Fin 3 → ℂ
  dx : ℝ
  spectrum : ℝ

/-- Entry (k, j) of the 3x3 matrix `[[0, 0, 0], [0, J11, J10],
[0, J01, J00]]` built by `field_after_polarizer` (the axes are inverted
because the component order is z, y, x). -/
def jones (J00 J01 J10 J11 : ℂ) (k j : Fin 3) : ℂ :=
  match k.val, j.val with
  | 1, 1 => J11
  | 1, 2 => J10
  | 2, 1 => J01
  | 2, 2 => J00
  | _, _ => 0

/-- Embedding of `field_after_polarizer`: `jnp.dot(field.u, LP)` contracts
the polarization components with the Jones matrix,
`u'[j] = sum_k u[k] * LP[k, j]`, and every other attribute is kept
(`field.replace(u=...)`). -/
noncomputable def field_after_polarizer (f : VectorField)
    (J00 J01 J10 J11 : ℂ) : VectorField :=
  { f with u := fun b h w c j =>
      ∑ k : Fin 3, f.u b h w c k * jones J00 J01 J10 J11 k j }

/-- Embedding of `linear_polarizer` at an angle w.r.t. the horizontal:
Jones coefficients `J00 = cos^2`, `J11 = sin^2`, symmetric off-diagonals
`J01 = J10 = sin * cos`. -/
noncomputable def linear_polarizer (f : VectorField) (angle : ℝ) :
    VectorField :=
  field_after_polarizer f ((Real.cos angle : ℂ) ^ 2)
    ((Real.sin angle : ℂ) * (Real.cos angle : ℂ))
    ((Real.sin angle : ℂ) * (Real.cos angle : ℂ))
    ((Real.sin angle : ℂ) ^ 2)

/-- Embedding of `left_circular_polarizer`. -/
noncomputable def left_circular_polarizer (f : VectorField) : VectorField :=
  field_after_polarizer f 1 (-Complex.I) Complex.I 1

/-- Embedding of `right_circular_polarizer`. -/
noncomputable def right_circular_polarizer (f : VectorField) : VectorField :=
  field_after_polarizer f 1 Complex.I (-Complex.I) 1

/-- The linear polarizer's Jones matrix. -/
noncomputable def linPolJones (angle : ℝ) : Fin 3 → Fin 3 → ℂ :=
  jones ((Real.cos angle : ℂ) ^ 2)
    ((Real.sin angle : ℂ) * (Real.cos angle : ℂ))
    ((Real.sin angle : ℂ) * (Real.cos angle : ℂ))
    ((Real.sin angle : ℂ) ^ 2)

/-- The linear polarizer's Jones matrix is a projection:
`LP * LP = LP`, entrywise, thanks to `sin^2 + cos^2 = 1`. -/
lemma linPolJones_mul (θ : ℝ) (k j : Fin 3) :
    ∑ m : Fin 3, linPolJones θ k m * linPolJones θ m j = linPolJones θ k j := by
  have hid : (Real.sin θ : ℂ) ^ 2 + (Real.cos θ : ℂ) ^ 2 = 1 := by
    have := Real.sin_sq_add_cos_sq θ
    exact_mod_cast congrArg (fun x : ℝ => (x : ℂ)) this
  rw [Fin.sum_univ_three]
  fin_cases k <;> fin_cases j <;> simp only [linPolJones, jones] <;>
    first
      | ring1
      | linear_combination ((Real.sin θ : ℂ) ^ 2) * hid
      | linear_combination ((Real.sin θ : ℂ) * (Real.cos θ : ℂ)) * hid
      | linear_combination ((Real.cos θ : ℂ) ^ 2) * hid

/-- C10. Applying the linear polarizer twice at the same angle equals
applying it once: the constructed Jones matrix is a projection (exact over
complex arithmetic, since `cos^2 + sin^2 = 1`), so `linear_polarizer` is
idempotent. -/
theorem linear_polarizer_idempotent (f : VectorField) (angle : ℝ) :
    linear_polarizer (linear_polarizer f angle) angle
      = linear_polarizer f angle := by
  have hu : (fun b h w c j => ∑ k : Fin 3,
      (∑ m : Fin 3, f.u b h w c m * linPolJones angle m k)
        * linPolJones angle k j)
      = (fun b h w c j => ∑ m : Fin 3,
          f.u b h w c m * linPolJones angle m j) := by
    funext b h w c j
    have h1 : ∀ k : Fin 3,
        (∑ m : Fin 3, f.u b h w c m * linPolJones angle m k)
          * linPolJones angle k j
        = ∑ m : Fin 3,
            f.u b h w c m * linPolJones angle m k * linPolJones angle k j :=
      fun k => Finset.sum_mul _ _ _
    rw [Finset.sum_congr rfl (fun k _ => h1 k), Finset.sum_comm]
    have h2 : ∀ m : Fin 3,
        (∑ k : Fin 3,
          f.u b h w c m * linPolJones angle m k * linPolJones angle k j)
        = f.u b h w c m * linPolJones angle m j := by
      intro m
      have h3 : ∀ k : Fin 3,
          f.u b h w c m * linPolJones angle m k * linPolJones angle k j
          = f.u b h w c m * (linPolJones angle m k * linPolJones angle k j) :=
        fun k => mul_assoc _ _ _
      rw [Finset.sum_congr rfl (fun k _ => h3 k), ← Finset.mul_sum,
        linPolJones_mul angle m j]
    rw [Finset.sum_congr rfl (fun m _ => h2 m)]
  exact congrArg (fun uu => VectorField.mk uu f.dx f.spectrum) hu

end Chromatix
